import Mathlib

/-!
Verification of the weekly price-tracker pipeline.

Source modelled here:
* data_loader.py  -- build_price_tables, fetch_friday_closes, _compute_live_and_intraday
* visualization.py -- _calculate_max_drawdown, _last_valid_numeric, _top_n_by_last_value

Modelling conventions:
* A pandas cell is `Option ℚ`: `none` is NaN/missing, `some q` a present value.
  Float rounding is not modelled; every property at issue is exact arithmetic.
* IEEE special values produced by arithmetic on floats (NaN, +inf, -inf) are
  modelled by the `Ext` type where an operation can produce them.
* Network / yfinance effects are oracle functions passed as parameters: the
  oracle returns the weekly Friday-close series (after resampling and dropna)
  resp. the recent daily closes that the download would produce.
* Dates are naturals; strftime labels are an injective image of the dates, so
  the label list is modelled as the date list itself.
-/

namespace PriceTracker

/-- A calendar date (ordinal). -/
abbrev Date := ℕ

/-- One pandas cell: `none` models NaN/missing. -/
abbrev Cell := Option ℚ

/-- A per-symbol weekly series: (week-ending date, close) pairs. -/
abbrev Series := List (Date × ℚ)

/-- A float value as produced by pandas arithmetic: finite, NaN or infinite. -/
inductive Ext where
  | nan : Ext
  | pinf : Ext
  | ninf : Ext
  | fin : ℚ → Ext
deriving DecidableEq

/-- A pandas DataFrame of rows = symbols, columns = dates.  All rows share the
single column index `cols`, exactly as a DataFrame has one column index. -/
structure PMatrix where
  cols : List Date
  rows : List (String × List Cell)
deriving DecidableEq

/-- A DataFrame whose cells are computed floats (may be NaN/inf). -/
structure EMatrix where
  cols : List Date
  rows : List (String × List Ext)
deriving DecidableEq

/-! ### MetricsEngine: weekly percent change (data_loader.py line 192)

`all_df.pct_change(axis=1) * 100.0`.  pandas `pct_change` first forward-fills
missing values along the axis (default `fill_method='pad'`), then computes
`filled / filled.shift(1) - 1`. -/

/-- Forward fill, carrying the last present value. -/
def ffillGo (acc : Cell) : List Cell → List Cell
  | [] => []
  | none :: rest => acc :: ffillGo acc rest
  | some v :: rest => some v :: ffillGo (some v) rest

/-- pandas `ffill` along a row. -/
def ffill (row : List Cell) : List Cell := ffillGo none row

/-- One cell of `pct_change * 100` on already-padded operands `p` (previous)
and `c` (current): `(c / p - 1) * 100`, with IEEE semantics for `p = 0`
(`c/0` is ±inf for nonzero `c` and NaN for `c = 0`) and NaN when an operand
is still missing after padding. -/
def pctCell (p c : Cell) : Ext :=
  match p, c with
  | some p, some c =>
      if p = 0 then
        if c = 0 then .nan else if 0 < c then .pinf else .ninf
      else .fin ((c / p - 1) * 100)
  | _, _ => .nan

/-- Row-wise `pct_change(axis=1) * 100`: pad, then cell i compares padded
values at i-1 and i; the first cell is NaN. -/
def pctChangeRow (row : List Cell) : List Ext :=
  if row = [] then []
  else
    let f := ffill row
    Ext.nan :: List.zipWith pctCell f f.tail

/-- `weekly_pct = all_df.pct_change(axis=1) * 100.0` (data_loader.py:192). -/
def pctChangeM (M : PMatrix) : EMatrix :=
  ⟨M.cols, M.rows.map fun p => (p.1, pctChangeRow p.2)⟩

/-! ### MetricsEngine: normalization (data_loader.py lines 195-196)

`start_vals = all_df.iloc[:, 0].replace(0, np.nan)`
`norm_df = all_df.divide(start_vals, axis=0) * 100.0` -/

/-- `start_vals` entry for one row: the first-column cell, with 0 replaced by
NaN. -/
def startVal (row : List Cell) : Cell :=
  match row.head? with
  | none => none
  | some none => none
  | some (some v) => if v = 0 then none else some v

/-- One row of `all_df.divide(start_vals, axis=0) * 100.0`: every cell is
divided by that row's `startVal`; division with a missing operand is NaN. -/
def normRow (row : List Cell) : List Cell :=
  row.map fun c =>
    match c, startVal row with
    | some v, some b => some (v / b * 100)
    | _, _ => none

/-- `norm_df` (data_loader.py:195-196). -/
def normalizeM (M : PMatrix) : PMatrix :=
  ⟨M.cols, M.rows.map fun p => (p.1, normRow p.2)⟩

/-! ### Claim-side vocabulary for C1/C2 -/

/-- The position and value of the first non-missing cell of a row. -/
def firstNonMissing : List Cell → Option (ℕ × ℚ)
  | [] => none
  | none :: rest => (firstNonMissing rest).map fun p => (p.1 + 1, p.2)
  | some v :: _ => some (0, v)

/-- The last present value at or before position `i` of a row
(the value forward-fill puts at position `i`). -/
def lastPresent (row : List Cell) (i : ℕ) : Cell :=
  ((row.take (i + 1)).filterMap id).getLast?

/-- `lastPresent` with an explicit fallback for an all-missing prefix. -/
def lastPresentAux (acc : Cell) (row : List Cell) (i : ℕ) : Cell :=
  match (row.take (i + 1)).filterMap id with
  | [] => acc
  | l => l.getLast?

/-! ### MetricsEngine: max drawdown (visualization.py lines 9-17)

`s = to_numeric(prices).dropna(); cum_max = s.cummax();`
`drawdown = (s / cum_max) - 1.0; return float(drawdown.min() * 100.0)`. -/

/-- Running maximum continuation. -/
def cummaxGo (m : ℚ) : List ℚ → List ℚ
  | [] => []
  | x :: xs => max m x :: cummaxGo (max m x) xs

/-- pandas `Series.cummax`. -/
def cummax : List ℚ → List ℚ
  | [] => []
  | x :: xs => x :: cummaxGo x xs

/-- One cell of `(s / cum_max) - 1.0` with IEEE division-by-zero semantics. -/
def ddCell (v m : ℚ) : Ext :=
  if m = 0 then
    if v = 0 then .nan else if 0 < v then .pinf else .ninf
  else .fin (v / m - 1)

/-- pandas `Series.min()`: NaN entries are skipped; NaN when all are. -/
def extMin (l : List Ext) : Ext :=
  l.foldl (fun acc x =>
    match acc, x with
    | .nan, x => x
    | acc, .nan => acc
    | .ninf, _ => .ninf
    | _, .ninf => .ninf
    | .pinf, b => b
    | a, .pinf => a
    | .fin a, .fin b => if a ≤ b then .fin a else .fin b) .nan

/-- Multiplication of a float value by 100. -/
def extMul100 : Ext → Ext
  | .nan => .nan
  | .pinf => .pinf
  | .ninf => .ninf
  | .fin q => .fin (q * 100)

/-- `_calculate_max_drawdown` (visualization.py lines 9-17); the two NaN
returns (prices empty / nothing left after dropna) are the `s = []` case. -/
def calcMaxDrawdown (prices : List Cell) : Ext :=
  let s := prices.filterMap id
  if s = [] then .nan
  else extMul100 (extMin (List.zipWith ddCell s (cummax s)))

/-! ### SeriesAligner (data_loader.py lines 179-182) -/

/-- Insert a date into a sorted duplicate-free list, keeping it so. -/
def insSorted (d : Date) : List Date → List Date
  | [] => [d]
  | x :: xs =>
    if d < x then d :: x :: xs
    else if d = x then x :: xs
    else x :: insSorted d xs

/-- The ascending duplicate-free sort of a list of dates:
`sorted(all_df.columns)` over the concat union index. -/
def sortedUnion (l : List Date) : List Date := l.foldr insSorted []

/-- The last `n` elements of a list. -/
def takeRight (n : ℕ) (l : List α) : List α := l.drop (l.length - n)

/-- `all_df.iloc[:, -weeks:]`: the python slice `[-weeks:]` keeps the last
`weeks` positions when `weeks > 0`, everything when `weeks = 0` (as `-0 = 0`),
and drops the first `|weeks|` positions when `weeks < 0`. -/
def trimCols (weeks : ℤ) (l : List α) : List α :=
  if 0 < weeks then takeRight weeks.toNat l else l.drop weeks.natAbs

/-- Reindexing lookup: the series value at a date, NaN when absent. -/
def lookupD (d : Date) : Series → Option ℚ
  | [] => none
  | (k, v) :: r => if d = k then some v else lookupD d r

/-- All dates appearing in any series of the map. -/
def allKeys (sm : List (String × Series)) : List Date :=
  (sm.map fun p => p.2.map Prod.fst).flatten

/-- data_loader.py lines 179-182: concat the series on the union of their
dates (rows = symbols after `.T`), sort columns ascending, keep the last
`weeks` columns. -/
def alignAndTrim (sm : List (String × Series)) (weeks : ℤ) : PMatrix :=
  let cols := trimCols weeks (sortedUnion (allKeys sm))
  ⟨cols, sm.map fun p => (p.1, cols.map fun d => lookupD d p.2)⟩

/-! ### fetch_friday_closes (data_loader.py lines 72-105)

The network/resampling part (lines 77-95: _safe_download, the W-FRI resample
with dropna, the thin-market backstop) is an outside-world effect; it is
modelled by an oracle `fOracle : String → Series` giving, per symbol, the
weekly Friday-close series those lines produce (empty when the download is
empty or lacks a Close column).  Lines 97-105 are modelled directly. -/

/-- pandas `Series.tail(n)`: the last `n` rows for `n ≥ 0`, all rows but the
first `|n|` for negative `n`. -/
def tailZ (n : ℤ) (l : List α) : List α :=
  if 0 ≤ n then takeRight n.toNat l else l.drop n.natAbs

/-- fetch_friday_closes: `None` when the weekly series is empty, else keep the
last `weeks` observations and require at least 2 of them. -/
def fetchFridayCloses (fOracle : String → Series) (weeks : ℤ) (sym : String) :
    Option Series :=
  let weekly := fOracle sym
  if weekly = [] then none
  else
    let t := tailZ weeks weekly
    if t.length < 2 then none else some t

/-! ### _compute_live_and_intraday (data_loader.py lines 108-145)

`qOracle sym` models `close_vals` (the 5-day daily Close history after
dropna); a fetch exception or empty history is the empty list. -/

/-- One symbol's (live row, intraday row), where a live row is
(Symbol, Live % Change, Live Price) and an intraday row is
(Symbol, Intraday % Change). -/
def liveIntraRow (qOracle : String → List ℚ) (sym : String) :
    (String × Cell × Cell) × (String × Cell) :=
  let closes := qOracle sym
  if 2 ≤ closes.length then
    let prevClose := closes.dropLast.getLast?.getD 0
    let lastClose := closes.getLast?.getD 0
    let intradayPct : Cell :=
      if 0 < prevClose then some ((lastClose - prevClose) / prevClose * 100)
      else none
    ((sym, intradayPct, some lastClose), (sym, intradayPct))
  else ((sym, none, none), (sym, none))

/-- `_compute_live_and_intraday`: (live_df, intraday_df). -/
def computeLiveIntraday (qOracle : String → List ℚ) (syms : List String) :
    List (String × Cell × Cell) × List (String × Cell) :=
  (syms.map fun s => (liveIntraRow qOracle s).1,
   syms.map fun s => (liveIntraRow qOracle s).2)

/-! ### build_price_tables (data_loader.py lines 148-210) -/

/-- Python str.strip: drop leading and trailing whitespace (modelled over the
character list so that it evaluates in the kernel). -/
def stripStr (s : String) : String :=
  ⟨((s.data.dropWhile Char.isWhitespace).reverse.dropWhile Char.isWhitespace).reverse⟩

/-- `[str(s).strip() for s in symbols if str(s).strip()]`. -/
def cleanSymbols (symbols : List String) : List String :=
  (symbols.map stripStr).filter (fun s => s ≠ "")

/-- Python dict assignment `m[k] = v`: update in place when the key exists
(keeping its position), else append. -/
def dictInsert (m : List (String × Series)) (k : String) (v : Series) :
    List (String × Series) :=
  if m.any (fun p => p.1 = k) then
    m.map fun p => if p.1 = k then (k, v) else p
  else m ++ [(k, v)]

/-- The fetch loop of build_price_tables (lines 163-170), also recording the
order in which symbols are fetched.  Returns (series_map, skipped, fetch log). -/
def fetchLoop (fOracle : String → Series) (weeks : ℤ) :
    List String → List (String × Series) → List String → List String →
    List (String × Series) × List String × List String
  | [], m, sk, lg => (m, sk, lg)
  | sym :: rest, m, sk, lg =>
    match fetchFridayCloses fOracle weeks sym with
    | none => fetchLoop fOracle weeks rest m (sk ++ [sym]) (lg ++ [sym])
    | some s => fetchLoop fOracle weeks rest (dictInsert m sym s) sk (lg ++ [sym])

/-- The message of the ValueError raised when no symbol yields data. -/
def noDataMsg : String :=
  "No weekly price data could be fetched for the selected symbols. Check symbol formats/exchanges or broaden the date window."

/-- The result bundle (the `pack` dict).  `priceSym` is the leading Symbol
column inserted into price_df, `priceMat` its date columns (= all_df). -/
structure Bundle where
  labels : List Date
  priceSym : List String
  priceMat : PMatrix
  weeklyPct : EMatrix
  normDf : PMatrix
  liveDf : List (String × Cell × Cell)
  intradayDf : List (String × Cell)
  skipped : List String
deriving DecidableEq

/-- The series_map accumulated by the fetch loop. -/
def fetchedMap (fOracle : String → Series) (symbols : List String) (weeks : ℤ) :
    List (String × Series) :=
  (fetchLoop fOracle weeks (cleanSymbols symbols) [] [] []).1

/-- The bundle build_price_tables packs when at least one symbol fetched:
labels are all_df's columns, price_df is the Symbol column plus all_df,
weekly_pct and norm_df derive from all_df, live tables from all_df's index,
and skipped is the fetch loop's skip list (lines 184-210). -/
def okBundle (fOracle : String → Series) (qOracle : String → List ℚ)
    (symbols : List String) (weeks : ℤ) : Bundle :=
  let M := alignAndTrim (fetchedMap fOracle symbols weeks) weeks
  let live := computeLiveIntraday qOracle (M.rows.map fun p => p.1)
  ⟨M.cols, M.rows.map (fun p => p.1), M, pctChangeM M, normalizeM M,
   live.1, live.2, (fetchLoop fOracle weeks (cleanSymbols symbols) [] [] []).2.1⟩

/-- build_price_tables.  Besides the Except result it returns the fetch log
(one entry per call of fetch_friday_closes, in call order). -/
def buildPriceTables (fOracle : String → Series) (qOracle : String → List ℚ)
    (symbols : List String) (weeks : ℤ) : Except String Bundle × List String :=
  let r := fetchLoop fOracle weeks (cleanSymbols symbols) [] [] []
  (if r.1 = [] then .error noDataMsg
   else .ok (okBundle fOracle qOracle symbols weeks), r.2.2)

/-! ### visualization.py: _last_valid_numeric and _top_n_by_last_value -/

/-- `_last_valid_numeric`: last non-NaN value of a row, NaN when none. -/
def lastValidNumeric (row : List Cell) : Cell := (row.filterMap id).getLast?

/-- The sort score of a row: its last valid value, with a missing score below
every number (sort_values descending places NaN last). -/
def rowKey (p : String × List Cell) : WithBot ℚ :=
  match lastValidNumeric p.2 with
  | some v => (v : WithBot ℚ)
  | none => ⊥

/-- Descending-score order on rows. -/
def rowRel (p q : String × List Cell) : Prop := rowKey q ≤ rowKey p

instance : DecidableRel rowRel := fun p q =>
  inferInstanceAs (Decidable (rowKey q ≤ rowKey p))

instance : IsTotal (String × List Cell) rowRel :=
  ⟨fun p q => le_total (rowKey q) (rowKey p)⟩

instance : IsTrans (String × List Cell) rowRel :=
  ⟨fun _ _ _ h1 h2 => le_trans h2 h1⟩

/-- Date-ascending order on indexed columns. -/
def idxDateRel (a b : ℕ × Date) : Prop := a.2 ≤ b.2

instance : DecidableRel idxDateRel := fun a b =>
  inferInstanceAs (Decidable (a.2 ≤ b.2))

instance : IsTotal (ℕ × Date) idxDateRel := ⟨fun a b => le_total a.2 b.2⟩

instance : IsTrans (ℕ × Date) idxDateRel := ⟨fun _ _ _ => le_trans⟩

/-- The column permutation `np.argsort(as_dt.values)`. -/
def argsortD (cols : List Date) : List ℕ :=
  (List.insertionSort idxDateRel cols.enum).map fun p => p.1

/-- `_sort_columns_as_dates_if_possible`: reorder the columns of the table
chronologically (columns are dates in this model, so parsing succeeds),
applying one permutation of the column positions to every row.
`_coerce_numeric_df` is the identity here: cells are already
numeric-or-missing. -/
def sortColsM (M : PMatrix) : PMatrix :=
  ⟨(argsortD M.cols).map fun i => M.cols.getD i 0,
   M.rows.map fun p => (p.1, (argsortD M.cols).map fun j => p.2.getD j none)⟩

/-- pandas `head(k)` over an integer `k`: the first `k` rows for `k ≥ 0`, all
but the last `|k|` rows for negative `k`. -/
def headZ (k : ℤ) (l : List α) : List α :=
  if 0 ≤ k then l.take k.toNat else l.take (l.length - k.natAbs)

/-- `scores.sort_values(ascending=False)` on rows: descending score, missing
scores last. -/
def sortRowsDesc (rows : List (String × List Cell)) : List (String × List Cell) :=
  List.insertionSort rowRel rows

/-- `_top_n_by_last_value` (visualization.py lines 45-57).  `df.loc[keep_idx]`
selects the kept rows in kept order (row labels are unique in every caller of
this helper). -/
def topNByLast (M : PMatrix) (n : Option ℤ) : PMatrix :=
  match n with
  | none => M
  | some k =>
    if M.rows = [] ∨ M.cols = [] then M
    else ⟨(sortColsM M).cols, headZ k (sortRowsDesc (sortColsM M).rows)⟩

/-! ### Claim statements, written as the spec words them -/

/-- Claim C1 as stated, for one matrix: normalization divides each row by
that row's first NON-MISSING value scaled by 100, the entry at the first
non-missing position is exactly 100 when that base value is nonzero, and a
zero or missing base value blanks the whole row. -/
def claimC1 (M : PMatrix) : Prop :=
  ∀ pr ∈ M.rows,
    (∀ i b, firstNonMissing pr.2 = some (i, b) → b ≠ 0 →
      normRow pr.2 = pr.2.map (Option.map fun v => v / b * 100) ∧
      (normRow pr.2).getD i none = some 100) ∧
    ((firstNonMissing pr.2 = none ∨ ∃ i, firstNonMissing pr.2 = some (i, 0)) →
      ∀ c ∈ normRow pr.2, c = none)

/-- Claim C2 as stated, for one row: each non-first percent-change cell is
((c - p)/p)*100 of the two ADJACENT cells when both are present with p ≠ 0,
and is absent (never zero, never infinite) when either adjacent operand is
missing or the denominator is zero. -/
def rowClaimC2 (row : List Cell) : Prop :=
  (pctChangeRow row).length = row.length ∧
  ∀ i (hi : i + 1 < (pctChangeRow row).length) (h0 : i < row.length)
    (h1 : i + 1 < row.length),
    (pctChangeRow row).get ⟨i + 1, hi⟩ =
      match row.get ⟨i, h0⟩, row.get ⟨i + 1, h1⟩ with
      | some p, some c => if p = 0 then Ext.nan else Ext.fin ((c - p) / p * 100)
      | _, _ => Ext.nan

/-- Claim C2 lifted to a matrix. -/
def claimC2 (M : PMatrix) : Prop := ∀ pr ∈ M.rows, rowClaimC2 pr.2

/-- The C2 cell as amended: its operands are the last PRESENT values at or
before the two columns (pandas pct_change forward-fills before differencing);
NaN when nothing is present at or before the previous column or both padded
operands are zero; a zero padded denominator under a nonzero numerator gives
a signed infinity. -/
def pctSpecCell (p c : Cell) : Ext :=
  match p, c with
  | some p, some c =>
      if p = 0 then
        if c = 0 then Ext.nan else if 0 < c then Ext.pinf else Ext.ninf
      else Ext.fin ((c - p) / p * 100)
  | _, _ => Ext.nan

/-- First-occurrence deduplication, with an accumulator of already-seen
symbols. -/
def dedupFirstFrom (seen : List String) : List String → List String
  | [] => []
  | x :: xs =>
    if x ∈ seen then dedupFirstFrom seen xs
    else x :: dedupFirstFrom (seen ++ [x]) xs

/-- First-occurrence deduplication of a symbol list. -/
def dedupFirst (l : List String) : List String := dedupFirstFrom [] l

/-- Claim C6 as stated, for one invocation: duplicates collapse to a single
fetch at ingestion (the fetch log is the deduplicated symbol list), and row
order equals the deduplicated input order restricted to symbols with data. -/
def claimC6 (fOracle : String → Series) (qOracle : String → List ℚ)
    (symbols : List String) (weeks : ℤ) : Prop :=
  (buildPriceTables fOracle qOracle symbols weeks).2 =
    dedupFirst (cleanSymbols symbols) ∧
  ∀ b, (buildPriceTables fOracle qOracle symbols weeks).1 = .ok b →
    b.priceSym = (dedupFirst (cleanSymbols symbols)).filter
      (fun s => (fetchFridayCloses fOracle weeks s).isSome)

/-- Claim C7 as stated, for one invocation: with a non-positive lookback the
pipeline fails fast BEFORE any fetch, so the fetch log stays empty. -/
def claimC7 (fOracle : String → Series) (qOracle : String → List ℚ)
    (symbols : List String) (weeks : ℤ) : Prop :=
  weeks ≤ 0 → (buildPriceTables fOracle qOracle symbols weeks).2 = []

/-- Claim C9 as stated: top-N returns the input unchanged when N is absent or
the table empty, and otherwise returns at most N rows, those with the largest
last non-missing values, ordered by that value descending. -/
def claimC9 (M : PMatrix) (n : Option ℤ) : Prop :=
  (n = none → topNByLast M n = M) ∧
  ((M.rows = [] ∨ M.cols = []) → topNByLast M n = M) ∧
  ∀ k, n = some k → ¬(M.rows = [] ∨ M.cols = []) →
    ((topNByLast M n).rows.length : ℤ) ≤ k ∧
    List.Sorted rowRel (topNByLast M n).rows ∧
    ∃ rest, sortRowsDesc (sortColsM M).rows = (topNByLast M n).rows ++ rest ∧
      ∀ p ∈ (topNByLast M n).rows, ∀ q ∈ rest, rowKey q ≤ rowKey p

/-- Unpack an ok Except, with a dummy bundle for the error case (used only to
state closed witness facts about computed ok results). -/
def exBundle (e : Except String Bundle) : Bundle :=
  match e with
  | .ok b => b
  | .error _ => ⟨[], [], ⟨[], []⟩, ⟨[], []⟩, ⟨[], []⟩, [], [], []⟩

/-- Whether an Except result is ok. -/
def exIsOk (e : Except String Bundle) : Bool :=
  match e with
  | .ok _ => true
  | .error _ => false

/-! ### Lemmas and claim theorems -/

theorem startVal_eq_some {row : List Cell} {b : ℚ} (h : startVal row = some b) :
    b ≠ 0 ∧ row.head? = some (some b) := by
  unfold startVal at h
  rcases hh : row.head? with _ | c
  · rw [hh] at h; simp at h
  · rcases c with _ | v
    · rw [hh] at h; simp at h
    · rw [hh] at h
      by_cases hv : v = 0
      · simp [hv] at h
      · simp [hv] at h
        subst h
        exact ⟨hv, rfl⟩

theorem normRow_of_startVal {row : List Cell} {b : ℚ} (h : startVal row = some b) :
    normRow row = row.map (Option.map fun v => v / b * 100) := by
  unfold normRow
  refine List.map_congr_left fun c _ => ?_
  rw [h]
  rcases c with _ | v <;> simp

theorem normRow_of_startVal_none {row : List Cell} (h : startVal row = none) :
    ∀ c ∈ normRow row, c = none := by
  intro c hc
  obtain ⟨d, _, rfl⟩ := List.mem_map.mp hc
  rw [h]
  rcases d with _ | v <;> simp

/-- Claim C1 fails on the code: a row whose first column is missing but whose
first present value is 5 (reachable whenever one series starts later than
another) normalizes to an all-missing row, because data_loader.py:195 divides
by the first COLUMN (`all_df.iloc[:, 0]`), not by the first non-missing value;
the claimed entry of exactly 100 at the first present position never appears. -/
theorem C1_counterexample :
    ¬ claimC1 ⟨[0, 1], [("A", [none, some 5])]⟩ := by
  intro h
  have h1 := (h ("A", [none, some 5]) (by simp)).1 1 5 (by decide) (by norm_num)
  exact absurd h1.2 (by decide)

/-- Claim C1 (amended): the normalized table divides each row by that row's
FIRST-COLUMN value, zero treated as missing.  When the first-column value b is
present and nonzero, every cell is v/b*100 and the first entry is exactly 100;
a zero or missing first-column value makes the whole normalized row absent
(no division error). -/
theorem C1_amended (M : PMatrix) (pr : String × List Cell) (h : pr ∈ M.rows) :
    (pr.1, normRow pr.2) ∈ (normalizeM M).rows ∧
    (∀ b, startVal pr.2 = some b → b ≠ 0 ∧ pr.2.head? = some (some b) ∧
      normRow pr.2 = pr.2.map (Option.map fun v => v / b * 100) ∧
      (normRow pr.2).head? = some (some 100)) ∧
    (startVal pr.2 = none → ∀ c ∈ normRow pr.2, c = none) := by
  refine ⟨List.mem_map_of_mem _ h, fun b hb => ?_, normRow_of_startVal_none⟩
  obtain ⟨hb0, hhead⟩ := startVal_eq_some hb
  have hmap := normRow_of_startVal hb
  refine ⟨hb0, hhead, hmap, ?_⟩
  rw [hmap, List.head?_map, hhead]
  simp [div_self hb0]

/-- Witness for C1 (amended) at the row [4, 6]: first entry is exactly 100. -/
theorem C1_amended_witness :
    (normRow [some (4:ℚ), some 6]).head? = some (some 100) :=
  (((C1_amended ⟨[0, 1], [("A", [some 4, some 6])]⟩ ("A", [some 4, some 6])
      (by simp)).2.1) 4 (by decide)).2.2.2

theorem ffillGo_length (acc : Cell) (row : List Cell) :
    (ffillGo acc row).length = row.length := by
  induction row generalizing acc with
  | nil => rfl
  | cons c rest ih => rcases c with _ | v <;> simp [ffillGo, ih]

theorem ffill_length (row : List Cell) : (ffill row).length = row.length :=
  ffillGo_length none row

theorem lastPresentAux_cons_none (acc : Cell) (rest : List Cell) (j : ℕ) :
    lastPresentAux acc (none :: rest) (j + 1) = lastPresentAux acc rest j := by
  unfold lastPresentAux
  rw [List.take_succ_cons]
  simp [List.filterMap_cons]

theorem lastPresentAux_cons_some (acc : Cell) (v : ℚ) (rest : List Cell) (j : ℕ) :
    lastPresentAux acc (some v :: rest) (j + 1) = lastPresentAux (some v) rest j := by
  unfold lastPresentAux
  rw [List.take_succ_cons]
  rw [show List.filterMap id (some v :: rest.take (j + 1)) =
        v :: List.filterMap id (rest.take (j + 1)) by simp]
  cases h : List.filterMap id (rest.take (j + 1)) with
  | nil => simp
  | cons x xs =>
    show (v :: x :: xs).getLast? = (x :: xs).getLast?
    exact List.getLast?_cons_cons

theorem lastPresentAux_zero_none (acc : Cell) (rest : List Cell) :
    lastPresentAux acc (none :: rest) 0 = acc := by
  unfold lastPresentAux
  simp

theorem lastPresentAux_zero_some (acc : Cell) (v : ℚ) (rest : List Cell) :
    lastPresentAux acc (some v :: rest) 0 = some v := by
  unfold lastPresentAux
  simp

theorem ffillGo_get? (acc : Cell) (row : List Cell) (i : ℕ) (hi : i < row.length) :
    (ffillGo acc row).get? i = some (lastPresentAux acc row i) := by
  induction row generalizing acc i with
  | nil => simp at hi
  | cons c rest ih =>
    rcases c with _ | v
    · cases i with
      | zero => simp [ffillGo, lastPresentAux_zero_none]
      | succ j =>
        have hj : j < rest.length := by simpa using hi
        rw [lastPresentAux_cons_none]
        simpa [ffillGo] using ih acc j hj
    · cases i with
      | zero => simp [ffillGo, lastPresentAux_zero_some]
      | succ j =>
        have hj : j < rest.length := by simpa using hi
        rw [lastPresentAux_cons_some]
        simpa [ffillGo] using ih (some v) j hj

theorem lastPresent_eq_aux (row : List Cell) (i : ℕ) :
    lastPresent row i = lastPresentAux none row i := by
  unfold lastPresent lastPresentAux
  cases h : List.filterMap id (row.take (i + 1)) with
  | nil => simp
  | cons x xs => rfl

theorem ffill_get? (row : List Cell) (i : ℕ) (hi : i < row.length) :
    (ffill row).get? i = some (lastPresent row i) := by
  rw [ffill, ffillGo_get? none row i hi, lastPresent_eq_aux]

theorem get?_zipWith {α β γ : Type} (f : α → β → γ) :
    ∀ (as : List α) (bs : List β) (i : ℕ),
    (List.zipWith f as bs).get? i =
      match as.get? i, bs.get? i with
      | some a, some b => some (f a b)
      | _, _ => none := by
  intro as
  induction as with
  | nil => intro bs i; cases bs <;> cases i <;> rfl
  | cons a as ih =>
    intro bs i
    cases bs with
    | nil =>
      cases i with
      | zero => rfl
      | succ j =>
        rw [List.zipWith_nil_right]
        cases h : (a :: as).get? (j + 1) <;> simp [h]
    | cons b bs =>
      cases i with
      | zero => rfl
      | succ j => simpa using ih bs j

theorem pctChangeRow_length (row : List Cell) :
    (pctChangeRow row).length = row.length := by
  unfold pctChangeRow
  split_ifs with h
  · rw [h]; rfl
  · have hf : (ffill row).length = row.length := ffill_length row
    have hpos : 0 < row.length := List.length_pos.mpr h
    simp only [List.length_cons, List.length_zipWith, List.length_tail, hf]
    rw [Nat.min_eq_right (Nat.sub_le _ _)]
    omega

theorem pctChangeRow_get?_succ (row : List Cell) (i : ℕ) (hi : i + 1 < row.length) :
    (pctChangeRow row).get? (i + 1) =
      some (pctCell (lastPresent row i) (lastPresent row (i + 1))) := by
  have hrow : row ≠ [] := by
    intro hnil; rw [hnil] at hi; simp at hi
  unfold pctChangeRow
  rw [if_neg hrow]
  have h0 : i < row.length := Nat.lt_of_succ_lt hi
  have hf0 : (ffill row).get? i = some (lastPresent row i) := ffill_get? row i h0
  have hf1 : (ffill row).tail.get? i = some (lastPresent row (i + 1)) := by
    rw [← List.drop_one, List.get?_drop]
    rw [show 1 + i = i + 1 by omega]
    exact ffill_get? row (i + 1) hi
  rw [List.get?_cons_succ, get?_zipWith, hf0, hf1]

theorem pctCell_eq_pctSpecCell (p c : Cell) : pctCell p c = pctSpecCell p c := by
  rcases p with _ | p <;> rcases c with _ | c
  · rfl
  · rfl
  · rfl
  · unfold pctCell pctSpecCell
    by_cases hp : p = 0
    · simp [hp]
    · simp only [if_neg hp]
      congr 1
      rw [sub_div, div_self hp]

theorem pctChangeRow_get?_zero (row : List Cell) (h : row ≠ []) :
    (pctChangeRow row).get? 0 = some Ext.nan := by
  unfold pctChangeRow
  rw [if_neg h]
  rfl

/-- Claim C2 fails on the code: for the row [10, NaN, 20], pandas pct_change
forward-fills before differencing, so the cell at the missing column is 0 and
the next cell is 100 (compared against the pre-gap value 10) - neither is the
absent cell the claim requires when an adjacent operand is missing. -/
theorem C2_counterexample :
    ¬ claimC2 ⟨[0, 1, 2], [("A", [some 10, none, some 20])]⟩ := by
  intro h
  have h2 := (h ("A", [some 10, none, some 20]) (by simp)).2 0
    (by decide) (by decide) (by decide)
  exact absurd h2 (by decide)

/-- Claim C2 (amended): each weekly percent-change cell at column index i+1
equals (a - b)/b * 100 where b is the last present value at or before column i
and a the last present value at or before column i+1 (pct_change pads); the
cell is NaN when nothing is present at or before column i (the first column is
always NaN) or when both padded operands are zero, and a zero b under a
nonzero a yields a signed infinity, not an absent cell. -/
theorem C2_amended (M : PMatrix) (pr : String × List Cell) (h : pr ∈ M.rows) :
    (pr.1, pctChangeRow pr.2) ∈ (pctChangeM M).rows ∧
    (pctChangeRow pr.2).length = pr.2.length ∧
    (∀ h0 : 0 < (pctChangeRow pr.2).length,
      (pctChangeRow pr.2).get ⟨0, h0⟩ = Ext.nan) ∧
    ∀ i (hi : i + 1 < (pctChangeRow pr.2).length),
      (pctChangeRow pr.2).get ⟨i + 1, hi⟩ =
        pctSpecCell (lastPresent pr.2 i) (lastPresent pr.2 (i + 1)) := by
  refine ⟨List.mem_map_of_mem _ h, pctChangeRow_length pr.2, ?_, ?_⟩
  · intro h0
    have hne : pr.2 ≠ [] := by
      intro hnil
      rw [pctChangeRow_length pr.2, hnil] at h0
      simp at h0
    have := pctChangeRow_get?_zero pr.2 hne
    rw [List.get?_eq_get h0] at this
    exact Option.some_injective _ this
  · intro i hi
    have hi2 : i + 1 < pr.2.length := by rw [← pctChangeRow_length pr.2]; exact hi
    have := pctChangeRow_get?_succ pr.2 i hi2
    rw [List.get?_eq_get hi] at this
    rw [Option.some_injective _ this, pctCell_eq_pctSpecCell]

/-- Witness for C2 (amended) at the row [10, 20]: the second cell is 100. -/
theorem C2_amended_witness :
    (pctChangeRow [some (10:ℚ), some 20]).get ⟨1, by decide⟩ = Ext.fin 100 := by
  have h := (C2_amended ⟨[0, 1], [("A", [some 10, some 20])]⟩
    ("A", [some 10, some 20]) (by simp)).2.2.2 0 (by decide)
  have e0 : lastPresent [some (10:ℚ), some 20] 0 = some 10 := by decide
  have e1 : lastPresent [some (10:ℚ), some 20] (0 + 1) = some 20 := by decide
  refine h.trans ?_
  rw [e0, e1]
  show (if (10:ℚ) = 0 then if (20:ℚ) = 0 then Ext.nan else if 0 < (20:ℚ) then Ext.pinf else Ext.ninf
    else Ext.fin ((20 - 10) / 10 * 100)) = Ext.fin 100
  rw [if_neg (by norm_num : ¬ (10:ℚ) = 0)]
  congr 1
  norm_num

/-- Claim C5 meets a code bug: a price row with exactly ONE present value
yields max drawdown 0 (a valid "no drawdown" number), not the absent value
the claim and spec require for fewer than 2 present values - the code only
returns NaN when no present value remains after dropna. -/
theorem C5_single_value_drawdown_zero :
    calcMaxDrawdown [some 5] = Ext.fin 0 := by
  unfold calcMaxDrawdown
  rw [show List.filterMap id [some (5:ℚ)] = [5] from rfl]
  rw [if_neg (by decide : ¬ ([5] : List ℚ) = [])]
  rw [show cummax [5] = [5] from rfl]
  rw [show List.zipWith ddCell [(5:ℚ)] [(5:ℚ)] = [ddCell 5 5] from rfl]
  rw [show ddCell (5:ℚ) 5 = Ext.fin (5 / 5 - 1) from if_neg (by norm_num)]
  rw [show extMin [Ext.fin ((5:ℚ) / 5 - 1)] = Ext.fin (5 / 5 - 1) from rfl]
  rw [show extMul100 (Ext.fin ((5:ℚ) / 5 - 1)) = Ext.fin ((5 / 5 - 1) * 100) from rfl]
  congr 1
  norm_num

theorem mem_insSorted (y d : Date) (l : List Date) :
    y ∈ insSorted d l ↔ y = d ∨ y ∈ l := by
  induction l with
  | nil => simp [insSorted]
  | cons x xs ih =>
    unfold insSorted
    split_ifs with h1 h2
    · simp [List.mem_cons]
    · subst h2; simp [List.mem_cons]
    · simp [List.mem_cons, ih]; tauto

theorem insSorted_sorted (d : Date) (l : List Date) (h : List.Sorted (· < ·) l) :
    List.Sorted (· < ·) (insSorted d l) := by
  induction l with
  | nil => simp [insSorted]
  | cons x xs ih =>
    obtain ⟨hx, hxs⟩ := List.sorted_cons.mp h
    unfold insSorted
    split_ifs with h1 h2
    · refine List.sorted_cons.mpr ⟨?_, h⟩
      intro y hy
      rcases List.mem_cons.mp hy with rfl | hy
      · exact h1
      · exact lt_trans h1 (hx y hy)
    · exact h
    · have hxd : x < d := lt_of_le_of_ne (le_of_not_lt h1) (Ne.symm h2)
      refine List.sorted_cons.mpr ⟨?_, ih hxs⟩
      intro y hy
      rcases (mem_insSorted y d xs).mp hy with rfl | hy
      · exact hxd
      · exact hx y hy

theorem sortedUnion_sorted (l : List Date) :
    List.Sorted (· < ·) (sortedUnion l) := by
  induction l with
  | nil => simp [sortedUnion]
  | cons x xs ih => exact insSorted_sorted x _ ih

theorem mem_sortedUnion (l : List Date) (d : Date) :
    d ∈ sortedUnion l ↔ d ∈ l := by
  induction l with
  | nil => simp [sortedUnion]
  | cons x xs ih =>
    show d ∈ insSorted x (sortedUnion xs) ↔ _
    rw [mem_insSorted, ih]
    simp [List.mem_cons]

theorem lookupD_eq_none (d : Date) (s : Series) :
    lookupD d s = none ↔ d ∉ s.map Prod.fst := by
  induction s with
  | nil => simp [lookupD]
  | cons p r ih =>
    obtain ⟨k, v⟩ := p
    by_cases hd : d = k
    · subst hd; simp [lookupD]
    · simp [lookupD, hd, ih]

/-- Claim C3: for a non-empty series map, the aligned matrix has one shared
column set for all rows (every row has exactly one cell per column) equal to
the most recent `weeks` dates of the strictly-ascending sorted union of all
input series' dates, and a cell is the series' value at that date, absent
exactly where the series has no value there. -/
theorem C3_aligned_matrix (sm : List (String × Series)) (weeks : ℤ)
    (_hsm : sm ≠ []) (hw : 0 < weeks) :
    List.Sorted (· < ·) (alignAndTrim sm weeks).cols ∧
    (alignAndTrim sm weeks).cols = takeRight weeks.toNat (sortedUnion (allKeys sm)) ∧
    (∀ d : Date, d ∈ sortedUnion (allKeys sm) ↔ ∃ p ∈ sm, d ∈ p.2.map Prod.fst) ∧
    (alignAndTrim sm weeks).rows.map (fun p => p.1) = sm.map (fun p => p.1) ∧
    (∀ q ∈ (alignAndTrim sm weeks).rows, q.2.length = (alignAndTrim sm weeks).cols.length) ∧
    (∀ p ∈ sm, (p.1, (alignAndTrim sm weeks).cols.map fun d => lookupD d p.2) ∈
      (alignAndTrim sm weeks).rows) ∧
    (∀ p ∈ sm, ∀ d : Date, lookupD d p.2 = none ↔ d ∉ p.2.map Prod.fst) := by
  have hcols : (alignAndTrim sm weeks).cols =
      takeRight weeks.toNat (sortedUnion (allKeys sm)) := by
    show trimCols weeks (sortedUnion (allKeys sm)) = _
    unfold trimCols
    rw [if_pos hw]
  refine ⟨?_, hcols, ?_, ?_, ?_, ?_, ?_⟩
  · rw [hcols]
    exact List.Pairwise.sublist (List.drop_sublist _ _) (sortedUnion_sorted _)
  · intro d
    rw [mem_sortedUnion]
    unfold allKeys
    rw [List.mem_flatten]
    constructor
    · rintro ⟨l, hl, hd⟩
      obtain ⟨p, hp, rfl⟩ := List.mem_map.mp hl
      exact ⟨p, hp, hd⟩
    · rintro ⟨p, hp, hd⟩
      exact ⟨p.2.map Prod.fst, List.mem_map_of_mem _ hp, hd⟩
  · simp [alignAndTrim, List.map_map, Function.comp]
  · intro q hq
    obtain ⟨p, _, rfl⟩ := List.mem_map.mp hq
    show (List.map (fun d => lookupD d p.2) (trimCols weeks (sortedUnion (allKeys sm)))).length = _
    rw [List.length_map]
    rfl
  · intro p hp
    exact List.mem_map_of_mem _ hp
  · intro p _ d
    exact lookupD_eq_none d p.2

/-- Witness for C3 at a concrete two-series map with weeks = 2. -/
theorem C3_aligned_matrix_witness :
    List.Sorted (· < ·)
      (alignAndTrim [("A", [(1, 10), (2, 11)]), ("B", [(2, 5), (3, 6)])] 2).cols ∧
    (alignAndTrim [("A", [(1, 10), (2, 11)]), ("B", [(2, 5), (3, 6)])] 2).cols = [2, 3] := by
  have h := C3_aligned_matrix [("A", [(1, 10), (2, 11)]), ("B", [(2, 5), (3, 6)])] 2
    (by simp) (by norm_num)
  exact ⟨h.1, h.2.1.trans (by decide)⟩

theorem fetchLoop_log (fO : String → Series) (w : ℤ) :
    ∀ (syms : List String) (m : List (String × Series)) (sk lg : List String),
    (fetchLoop fO w syms m sk lg).2.2 = lg ++ syms := by
  intro syms
  induction syms with
  | nil => intro m sk lg; simp [fetchLoop]
  | cons sym rest ih =>
    intro m sk lg
    rcases hf : fetchFridayCloses fO w sym with _ | s <;>
      simp [fetchLoop, hf, ih]

theorem fetchLoop_skipped (fO : String → Series) (w : ℤ) :
    ∀ (syms : List String) (m : List (String × Series)) (sk lg : List String),
    (fetchLoop fO w syms m sk lg).2.1 =
      sk ++ syms.filter (fun s => (fetchFridayCloses fO w s).isNone) := by
  intro syms
  induction syms with
  | nil => intro m sk lg; simp [fetchLoop]
  | cons sym rest ih =>
    intro m sk lg
    rcases hf : fetchFridayCloses fO w sym with _ | s <;>
      simp [fetchLoop, hf, ih, List.filter_cons]

theorem dictInsert_of_mem (m : List (String × Series)) (k : String) (v : Series)
    (hm : ∀ p ∈ m, p.1 = k → p.2 = v) (hk : k ∈ m.map Prod.fst) :
    dictInsert m k v = m := by
  obtain ⟨p0, hp0, hp0k⟩ := List.mem_map.mp hk
  have hany : m.any (fun p => p.1 = k) = true :=
    List.any_eq_true.mpr ⟨p0, hp0, decide_eq_true hp0k⟩
  unfold dictInsert
  rw [if_pos hany]
  have : ∀ p ∈ m, (if p.1 = k then (k, v) else p) = p := by
    intro p hp
    by_cases hpk : p.1 = k
    · rw [if_pos hpk]
      have := hm p hp hpk
      rw [Prod.ext_iff]
      exact ⟨hpk.symm, this.symm⟩
    · rw [if_neg hpk]
  calc m.map (fun p => if p.1 = k then (k, v) else p) = m.map id :=
        List.map_congr_left this
    _ = m := List.map_id m

theorem dictInsert_of_not_mem (m : List (String × Series)) (k : String) (v : Series)
    (hk : k ∉ m.map Prod.fst) :
    dictInsert m k v = m ++ [(k, v)] := by
  have hany : m.any (fun p => p.1 = k) = false := by
    rw [List.any_eq_false]
    intro p hp hpk
    exact hk (List.mem_map.mpr ⟨p, hp, of_decide_eq_true hpk⟩)
  unfold dictInsert
  rw [hany]
  rfl

theorem dedupFirstFrom_cons_mem (seen : List String) (x : String) (xs : List String)
    (h : x ∈ seen) : dedupFirstFrom seen (x :: xs) = dedupFirstFrom seen xs := by
  simp [dedupFirstFrom, h]

theorem dedupFirstFrom_cons_not_mem (seen : List String) (x : String) (xs : List String)
    (h : x ∉ seen) :
    dedupFirstFrom seen (x :: xs) = x :: dedupFirstFrom (seen ++ [x]) xs := by
  simp [dedupFirstFrom, h]

theorem fetchLoop_keys (fO : String → Series) (w : ℤ) :
    ∀ (syms : List String) (m : List (String × Series)) (sk lg : List String),
    (∀ p ∈ m, fetchFridayCloses fO w p.1 = some p.2) →
    (fetchLoop fO w syms m sk lg).1.map Prod.fst =
      m.map Prod.fst ++
        dedupFirstFrom (m.map Prod.fst)
          (syms.filter fun s => (fetchFridayCloses fO w s).isSome) := by
  intro syms
  induction syms with
  | nil => intro m sk lg hm; simp [fetchLoop, dedupFirstFrom]
  | cons sym rest ih =>
    intro m sk lg hm
    rcases hf : fetchFridayCloses fO w sym with _ | s
    · simp only [fetchLoop, hf]
      rw [ih m _ _ hm]
      simp [List.filter_cons, hf]
    · simp only [fetchLoop, hf]
      have hfilter : (sym :: rest).filter (fun s => (fetchFridayCloses fO w s).isSome) =
          sym :: rest.filter (fun s => (fetchFridayCloses fO w s).isSome) := by
        simp [List.filter_cons, hf]
      rw [hfilter]
      by_cases hmem : sym ∈ m.map Prod.fst
      · have heq : dictInsert m sym s = m := by
          refine dictInsert_of_mem m sym s ?_ hmem
          intro p hp hpk
          have := hm p hp
          rw [hpk, hf] at this
          exact (Option.some_injective _ this.symm)
        rw [heq, ih m _ _ hm, dedupFirstFrom_cons_mem _ _ _ hmem]
      · have heq : dictInsert m sym s = m ++ [(sym, s)] :=
          dictInsert_of_not_mem m sym s hmem
        rw [heq]
        have hm2 : ∀ p ∈ m ++ [(sym, s)], fetchFridayCloses fO w p.1 = some p.2 := by
          intro p hp
          rcases List.mem_append.mp hp with hp | hp
          · exact hm p hp
          · rcases List.mem_singleton.mp hp with rfl
            exact hf
        rw [ih (m ++ [(sym, s)]) _ _ hm2]
        have hkeys : (m ++ [(sym, s)]).map Prod.fst = m.map Prod.fst ++ [sym] := by
          simp
        rw [hkeys, dedupFirstFrom_cons_not_mem _ _ _ hmem]
        simp [List.append_assoc]

theorem dedupFirstFrom_nil_iff (l : List String) :
    dedupFirstFrom [] l = [] ↔ l = [] := by
  cases l with
  | nil => simp [dedupFirstFrom]
  | cons x xs => simp [dedupFirstFrom]

theorem build_snd (fO : String → Series) (qO : String → List ℚ)
    (symbols : List String) (weeks : ℤ) :
    (buildPriceTables fO qO symbols weeks).2 = cleanSymbols symbols := by
  show (fetchLoop fO weeks (cleanSymbols symbols) [] [] []).2.2 = _
  rw [fetchLoop_log]
  exact List.nil_append _

theorem fetchedMap_nil_iff (fO : String → Series) (symbols : List String) (weeks : ℤ) :
    fetchedMap fO symbols weeks = [] ↔
      ∀ s ∈ cleanSymbols symbols, fetchFridayCloses fO weeks s = none := by
  unfold fetchedMap
  have hk := fetchLoop_keys fO weeks (cleanSymbols symbols) [] [] [] (by simp)
  constructor
  · intro h s hs
    rw [h] at hk
    simp only [List.map_nil, List.nil_append] at hk
    have hfil := (dedupFirstFrom_nil_iff _).mp hk.symm
    have hnot := List.filter_eq_nil_iff.mp hfil s hs
    cases hx : fetchFridayCloses fO weeks s with
    | none => rfl
    | some v =>
      rw [hx] at hnot
      simp at hnot
  · intro h
    have hfil : (cleanSymbols symbols).filter
        (fun s => (fetchFridayCloses fO weeks s).isSome) = [] := by
      apply List.filter_eq_nil_iff.mpr
      intro s hs
      simp [h s hs]
    rw [hfil] at hk
    simp only [List.map_nil, List.nil_append] at hk
    have : (fetchLoop fO weeks (cleanSymbols symbols) [] [] []).1.map Prod.fst = [] := by
      rw [hk]; rfl
    exact List.map_eq_nil_iff.mp this

theorem build_error_of (fO : String → Series) (qO : String → List ℚ)
    (symbols : List String) (weeks : ℤ)
    (hnil : (fetchLoop fO weeks (cleanSymbols symbols) [] [] []).1 = []) :
    (buildPriceTables fO qO symbols weeks).1 = .error noDataMsg := by
  show (if (fetchLoop fO weeks (cleanSymbols symbols) [] [] []).1 = []
    then (Except.error noDataMsg : Except String Bundle)
    else .ok (okBundle fO qO symbols weeks)) = .error noDataMsg
  rw [if_pos hnil]

theorem build_ok_of (fO : String → Series) (qO : String → List ℚ)
    (symbols : List String) (weeks : ℤ)
    (hne : (fetchLoop fO weeks (cleanSymbols symbols) [] [] []).1 ≠ []) :
    (buildPriceTables fO qO symbols weeks).1 = .ok (okBundle fO qO symbols weeks) := by
  show (if (fetchLoop fO weeks (cleanSymbols symbols) [] [] []).1 = []
    then (Except.error noDataMsg : Except String Bundle)
    else .ok (okBundle fO qO symbols weeks)) = _
  rw [if_neg hne]

theorem build_ok_inv (fO : String → Series) (qO : String → List ℚ)
    (symbols : List String) (weeks : ℤ) (b : Bundle)
    (hb : (buildPriceTables fO qO symbols weeks).1 = .ok b) :
    b = okBundle fO qO symbols weeks ∧
    (fetchLoop fO weeks (cleanSymbols symbols) [] [] []).1 ≠ [] := by
  by_cases hnil : (fetchLoop fO weeks (cleanSymbols symbols) [] [] []).1 = []
  · rw [build_error_of fO qO symbols weeks hnil] at hb
    exact Except.noConfusion hb
  · rw [build_ok_of fO qO symbols weeks hnil] at hb
    injection hb with h
    exact ⟨h.symm, hnil⟩

theorem exIsOk_spec (e : Except String Bundle) (h : exIsOk e = true) :
    e = .ok (exBundle e) := by
  cases e with
  | ok b => rfl
  | error msg => exact absurd h (by simp [exIsOk])

/-- Claim C4: build_price_tables raises its batch-level no-data failure
exactly when zero (cleaned) symbols yield sufficient weekly data; when at
least one symbol succeeds it returns a bundle whose skipped list is precisely
the failing symbols, in input order. -/
theorem C4_no_data_iff (fO : String → Series) (qO : String → List ℚ)
    (symbols : List String) (weeks : ℤ) :
    ((∀ s ∈ cleanSymbols symbols, fetchFridayCloses fO weeks s = none) →
      (buildPriceTables fO qO symbols weeks).1 = .error noDataMsg) ∧
    ((∃ s ∈ cleanSymbols symbols, (fetchFridayCloses fO weeks s).isSome) →
      ∃ b, (buildPriceTables fO qO symbols weeks).1 = .ok b ∧
        b.skipped = (cleanSymbols symbols).filter
          (fun s => (fetchFridayCloses fO weeks s).isNone)) := by
  constructor
  · intro h
    exact build_error_of fO qO symbols weeks ((fetchedMap_nil_iff fO symbols weeks).mpr h)
  · rintro ⟨s, hs, hsome⟩
    have hne : ¬ (fetchLoop fO weeks (cleanSymbols symbols) [] [] []).1 = [] := by
      intro hnil
      have := (fetchedMap_nil_iff fO symbols weeks).mp hnil s hs
      rw [this] at hsome
      simp at hsome
    refine ⟨okBundle fO qO symbols weeks, build_ok_of fO qO symbols weeks hne, ?_⟩
    show (fetchLoop fO weeks (cleanSymbols symbols) [] [] []).2.1 = _
    rw [fetchLoop_skipped]
    exact List.nil_append _

/-- Witness for C4: an all-failing run errors; a run with one good symbol and
one blank symbol returns a bundle with an empty skipped list. -/
theorem C4_no_data_iff_witness :
    (buildPriceTables (fun _ => []) (fun _ => []) ["A"] 5).1 = .error noDataMsg ∧
    ∃ b, (buildPriceTables (fun _ => [(1, 10), (2, 11)]) (fun _ => []) ["A", ""] 5).1 = .ok b ∧
      b.skipped = [] := by
  constructor
  · exact (C4_no_data_iff (fun _ => []) (fun _ => []) ["A"] 5).1 (by decide)
  · obtain ⟨b, hb, hsk⟩ :=
      (C4_no_data_iff (fun _ => [(1, 10), (2, 11)]) (fun _ => []) ["A", ""] 5).2
        ⟨"A", by decide, by decide⟩
    exact ⟨b, hb, by rw [hsk]; decide⟩

/-- Claim C6 fails on the code: the input ["A", "A"] triggers TWO calls of
fetch_friday_closes (the loop has no deduplication; only the dict collapses
the rows), so duplicates do not collapse to a single fetch at ingestion. -/
theorem C6_counterexample :
    ¬ claimC6 (fun _ => [(1, 10), (2, 11)]) (fun _ => []) ["A", "A"] 5 := by
  intro h
  exact absurd h.1 (by decide)

/-- Claim C6 (amended): every occurrence of a (trimmed, non-blank) symbol
triggers its own fetch, in input order; duplicates are re-fetched and a
failing duplicate enters skipped once per occurrence.  The series dict
collapses duplicates, so the row order of the price, normalized and weekly
percent-change tables equals the first-occurrence deduplication of the
successful symbols in input order. -/
theorem C6_amended (fO : String → Series) (qO : String → List ℚ)
    (symbols : List String) (weeks : ℤ) :
    (buildPriceTables fO qO symbols weeks).2 = cleanSymbols symbols ∧
    ∀ b, (buildPriceTables fO qO symbols weeks).1 = .ok b →
      b.priceSym = dedupFirstFrom []
        ((cleanSymbols symbols).filter fun s => (fetchFridayCloses fO weeks s).isSome) ∧
      b.normDf.rows.map Prod.fst = b.priceSym ∧
      b.weeklyPct.rows.map Prod.fst = b.priceSym ∧
      b.skipped = (cleanSymbols symbols).filter
        (fun s => (fetchFridayCloses fO weeks s).isNone) := by
  refine ⟨build_snd fO qO symbols weeks, ?_⟩
  intro b hb
  obtain ⟨rfl, hne⟩ := build_ok_inv fO qO symbols weeks b hb
  have hkeys := fetchLoop_keys fO weeks (cleanSymbols symbols) [] [] [] (by simp)
  have hsym : (okBundle fO qO symbols weeks).priceSym = dedupFirstFrom []
      ((cleanSymbols symbols).filter fun s => (fetchFridayCloses fO weeks s).isSome) := by
    show (alignAndTrim (fetchedMap fO symbols weeks) weeks).rows.map Prod.fst = _
    unfold alignAndTrim fetchedMap
    rw [List.map_map]
    simpa using hkeys
  refine ⟨hsym, ?_, ?_, ?_⟩
  · show (normalizeM (alignAndTrim (fetchedMap fO symbols weeks) weeks)).rows.map Prod.fst = _
    unfold normalizeM
    rw [List.map_map]
    exact List.map_congr_left (fun p _ => rfl)
  · show (pctChangeM (alignAndTrim (fetchedMap fO symbols weeks) weeks)).rows.map Prod.fst = _
    unfold pctChangeM
    rw [List.map_map]
    exact List.map_congr_left (fun p _ => rfl)
  · show (fetchLoop fO weeks (cleanSymbols symbols) [] [] []).2.1 = _
    rw [fetchLoop_skipped]
    exact List.nil_append _

/-- Witness for C6 (amended) at a concrete run: both symbols fetched once
each, and the single successful symbol forms the row order. -/
theorem C6_amended_witness :
    (buildPriceTables (fun s => if s = "A" then [(1, 10), (2, 11)] else [])
      (fun _ => []) ["A", "B"] 5).2 = ["A", "B"] ∧
    (exBundle (buildPriceTables (fun s => if s = "A" then [(1, 10), (2, 11)] else [])
      (fun _ => []) ["A", "B"] 5).1).priceSym = ["A"] := by
  have h := C6_amended (fun s => if s = "A" then [(1, 10), (2, 11)] else [])
    (fun _ => []) ["A", "B"] 5
  refine ⟨h.1.trans (by decide), ?_⟩
  have hok := exIsOk_spec _ (by decide :
    exIsOk (buildPriceTables (fun s => if s = "A" then [(1, 10), (2, 11)] else [])
      (fun _ => []) ["A", "B"] 5).1 = true)
  have h2 := h.2 _ hok
  rw [h2.1]
  decide

theorem fetchFridayCloses_zero_weeks (fO : String → Series) (s : String) :
    fetchFridayCloses fO 0 s = none := by
  unfold fetchFridayCloses
  by_cases h : fO s = []
  · rw [if_pos h]
  · rw [if_neg h]
    have ht : tailZ (0 : ℤ) (fO s) = [] := by
      unfold tailZ takeRight
      rw [if_pos le_rfl]
      simp [List.drop_length]
    rw [ht]
    simp

/-- Claim C7 fails on the code: with the invalid lookback weeks = 0 the
pipeline still fetches symbol "A" (the fetch log is nonempty) - there is no
configuration validation and no fail-fast before fetching. -/
theorem C7_counterexample :
    ¬ claimC7 (fun _ => [(1, 10), (2, 11)]) (fun _ => []) ["A"] 0 := by
  intro h
  exact absurd (h le_rfl) (by decide)

/-- Claim C7 (amended): build_price_tables performs no lookback validation:
with weeks = 0 it still fetches every cleaned symbol, each fetched series is
emptied by tail(0), and only afterwards is the generic batch no-data error
raised. -/
theorem C7_amended (fO : String → Series) (qO : String → List ℚ)
    (symbols : List String) :
    (buildPriceTables fO qO symbols 0).2 = cleanSymbols symbols ∧
    (buildPriceTables fO qO symbols 0).1 = .error noDataMsg := by
  refine ⟨build_snd fO qO symbols 0, ?_⟩
  refine build_error_of fO qO symbols 0 ?_
  exact (fetchedMap_nil_iff fO symbols 0).mpr
    (fun s _ => fetchFridayCloses_zero_weeks fO s)

/-- Claim C8: for every symbol in the live snapshot, the intraday percent
change equals (last - prev)/prev * 100 exactly when the previous close exists
(at least two closes in the recent history) and is strictly positive, and is
absent otherwise - never an error, never a division by zero. -/
theorem C8_intraday (qO : String → List ℚ) (syms : List String) (sym : String)
    (h : sym ∈ syms) :
    ∃ e ∈ (computeLiveIntraday qO syms).2, e.1 = sym ∧
      e.2 = match (qO sym).dropLast.getLast?, (qO sym).getLast? with
        | some prevClose, some lastClose =>
            if 0 < prevClose then some ((lastClose - prevClose) / prevClose * 100)
            else none
        | _, _ => none := by
  refine ⟨(liveIntraRow qO sym).2, List.mem_map_of_mem _ h, ?_, ?_⟩
  · by_cases h2 : 2 ≤ (qO sym).length <;> simp [liveIntraRow, h2]
  · by_cases h2 : 2 ≤ (qO sym).length
    · have hne1 : qO sym ≠ [] := by
        intro h0; rw [h0] at h2; simp at h2
      have hne2 : (qO sym).dropLast ≠ [] := by
        intro h0
        have := congrArg List.length h0
        rw [List.length_dropLast] at this
        simp at this
        omega
      obtain ⟨x, hx⟩ := Option.isSome_iff_exists.mp (List.getLast?_isSome.mpr hne2)
      obtain ⟨y, hy⟩ := Option.isSome_iff_exists.mp (List.getLast?_isSome.mpr hne1)
      rw [hx, hy]
      show (liveIntraRow qO sym).2.2 = if 0 < x then some ((y - x) / x * 100) else none
      simp only [liveIntraRow, if_pos h2, hx, hy]
      rfl
    · have hlen : (qO sym).dropLast.length = 0 := by
        rw [List.length_dropLast]
        omega
      rw [List.length_eq_zero.mp hlen]
      show (liveIntraRow qO sym).2.2 = none
      simp only [liveIntraRow, if_neg h2]

/-- Witness for C8 at closes [10, 11]: intraday change is 10 percent. -/
theorem C8_intraday_witness :
    ∃ e ∈ (computeLiveIntraday (fun _ => [10, 11]) ["A"]).2, e.1 = "A" ∧ e.2 = some 10 := by
  obtain ⟨e, he, h1, h2⟩ := C8_intraday (fun _ => [10, 11]) ["A"] "A" (by simp)
  refine ⟨e, he, h1, ?_⟩
  rw [h2]
  show (if (0:ℚ) < 10 then some (((11:ℚ) - 10) / 10 * 100) else none) = some 10
  rw [if_pos (by norm_num : (0:ℚ) < 10)]
  congr 1
  norm_num

theorem sortRowsDesc_sorted (rows : List (String × List Cell)) :
    List.Sorted rowRel (sortRowsDesc rows) :=
  List.sorted_insertionSort rowRel rows

theorem sortRowsDesc_perm (rows : List (String × List Cell)) :
    List.Perm (sortRowsDesc rows) rows :=
  List.perm_insertionSort rowRel rows

theorem headZ_eq_take (k : ℤ) (l : List α) :
    headZ k l = l.take (if 0 ≤ k then k.toNat else l.length - k.natAbs) := by
  unfold headZ
  split_ifs <;> rfl

/-- Claim C9 fails on the code: with n = -1 on a two-row table, pandas
head(-1) keeps all but the last row, so one row is returned - not "at most N
rows" as the claim states for every integer N. -/
theorem C9_counterexample :
    ¬ claimC9 ⟨[0], [("A", [some 1]), ("B", [some 2])]⟩ (some (-1)) := by
  intro h
  have h3 := (h.2.2 (-1) rfl (by decide)).1
  exact absurd h3 (by decide)

/-- Claim C9 (amended): top-N returns the input unchanged when N is absent or
the table is empty; otherwise it returns a prefix of the rows sorted by their
chronologically-last non-missing value descending (missing scores last): at
most N rows when N is non-negative, and all but the |N| lowest-scoring rows
when N is negative; every returned row scores at least as high as every
dropped row, and nothing is mutated (the result is a fresh table). -/
theorem C9_amended (M : PMatrix) (n : Option ℤ) :
    (n = none → topNByLast M n = M) ∧
    ((M.rows = [] ∨ M.cols = []) → topNByLast M n = M) ∧
    ∀ k, n = some k → ¬(M.rows = [] ∨ M.cols = []) →
      (topNByLast M n).cols = (sortColsM M).cols ∧
      (0 ≤ k → ((topNByLast M n).rows.length : ℤ) ≤ k) ∧
      (k < 0 → (topNByLast M n).rows.length = M.rows.length - k.natAbs) ∧
      List.Sorted rowRel (topNByLast M n).rows ∧
      ∃ rest, sortRowsDesc (sortColsM M).rows = (topNByLast M n).rows ++ rest ∧
        List.Perm ((topNByLast M n).rows ++ rest) (sortColsM M).rows ∧
        ∀ p ∈ (topNByLast M n).rows, ∀ q ∈ rest, rowKey q ≤ rowKey p := by
  refine ⟨?_, ?_, ?_⟩
  · intro hn; rw [hn]; rfl
  · intro hemp
    cases n with
    | none => rfl
    | some k =>
      show (if M.rows = [] ∨ M.cols = [] then M else _) = M
      rw [if_pos hemp]
  · intro k hk hne
    subst hk
    have htop : topNByLast M (some k) =
        ⟨(sortColsM M).cols, headZ k (sortRowsDesc (sortColsM M).rows)⟩ := by
      show (if M.rows = [] ∨ M.cols = [] then M else _) = _
      rw [if_neg hne]
    rw [htop]
    set L := sortRowsDesc (sortColsM M).rows with hL
    set t := if 0 ≤ k then k.toNat else L.length - k.natAbs with ht
    have hhead : headZ k L = L.take t := by
      rw [headZ_eq_take]
    have hlen : L.length = M.rows.length := by
      rw [hL, (sortRowsDesc_perm _).length_eq]
      show (M.rows.map _).length = _
      rw [List.length_map]
    refine ⟨rfl, ?_, ?_, ?_, ?_⟩
    · intro hk0
      show ((headZ k L).length : ℤ) ≤ k
      rw [hhead, List.length_take, ht, if_pos hk0]
      calc (↑(min k.toNat L.length) : ℤ) ≤ (k.toNat : ℤ) := by
            exact_mod_cast Nat.min_le_left _ _
        _ = k := Int.toNat_of_nonneg hk0
    · intro hk0
      show (headZ k L).length = _
      rw [hhead, List.length_take, ht, if_neg (by omega : ¬ 0 ≤ k), hlen]
      exact Nat.min_eq_left (Nat.sub_le _ _)
    · show List.Sorted rowRel (headZ k L)
      rw [hhead]
      exact List.Pairwise.sublist (List.take_sublist _ _) (sortRowsDesc_sorted _)
    · refine ⟨L.drop t, ?_, ?_, ?_⟩
      · show L = headZ k L ++ L.drop t
        rw [hhead, List.take_append_drop]
      · show List.Perm (headZ k L ++ L.drop t) (sortColsM M).rows
        rw [hhead, List.take_append_drop]
        exact sortRowsDesc_perm _
      · intro p hp q hq
        have hp2 : p ∈ L.take t := by
          rw [← hhead]
          exact hp
        have hsorted : List.Pairwise rowRel (L.take t ++ L.drop t) := by
          rw [List.take_append_drop]
          exact sortRowsDesc_sorted _
        exact (List.pairwise_append.mp hsorted).2.2 p hp2 q hq

/-- Witness for C9 (amended) at a three-row table with n = 2. -/
theorem C9_amended_witness :
    ((topNByLast ⟨[0], [("A", [some 1]), ("B", [some 2]), ("C", [none])]⟩
      (some 2)).rows.length : ℤ) ≤ 2 ∧
    List.Sorted rowRel (topNByLast ⟨[0], [("A", [some 1]), ("B", [some 2]), ("C", [none])]⟩
      (some 2)).rows := by
  have h := (C9_amended ⟨[0], [("A", [some 1]), ("B", [some 2]), ("C", [none])]⟩
    (some 2)).2.2 2 rfl (by decide)
  exact ⟨h.2.1 (by norm_num), h.2.2.2.1⟩

theorem normRow_length (row : List Cell) : (normRow row).length = row.length :=
  List.length_map _ _

/-- Claim C10: every successful bundle is internally consistent: the weekly
percent-change and normalized tables carry exactly the label dates as columns
(same order) and the same row index as the price table, whose leading Symbol
column lists those same rows; every row of each table has one cell per
label. -/
theorem C10_bundle_consistency (fO : String → Series) (qO : String → List ℚ)
    (symbols : List String) (weeks : ℤ) (b : Bundle)
    (hb : (buildPriceTables fO qO symbols weeks).1 = .ok b) :
    b.weeklyPct.cols = b.labels ∧ b.normDf.cols = b.labels ∧
    b.priceMat.cols = b.labels ∧
    b.weeklyPct.rows.map Prod.fst = b.priceSym ∧
    b.normDf.rows.map Prod.fst = b.priceSym ∧
    b.priceMat.rows.map Prod.fst = b.priceSym ∧
    (∀ q ∈ b.priceMat.rows, q.2.length = b.labels.length) ∧
    (∀ q ∈ b.weeklyPct.rows, q.2.length = b.labels.length) ∧
    (∀ q ∈ b.normDf.rows, q.2.length = b.labels.length) := by
  obtain ⟨rfl, hne⟩ := build_ok_inv fO qO symbols weeks b hb
  refine ⟨rfl, rfl, rfl, ?_, ?_, ?_, ?_, ?_, ?_⟩
  · show (pctChangeM (alignAndTrim (fetchedMap fO symbols weeks) weeks)).rows.map Prod.fst = _
    unfold pctChangeM
    rw [List.map_map]
    exact List.map_congr_left (fun p _ => rfl)
  · show (normalizeM (alignAndTrim (fetchedMap fO symbols weeks) weeks)).rows.map Prod.fst = _
    unfold normalizeM
    rw [List.map_map]
    exact List.map_congr_left (fun p _ => rfl)
  · exact List.map_congr_left (fun p _ => rfl)
  · intro q hq
    obtain ⟨p, _, rfl⟩ := List.mem_map.mp hq
    show (List.map (fun d => lookupD d p.2)
      (trimCols weeks (sortedUnion (allKeys (fetchedMap fO symbols weeks))))).length = _
    rw [List.length_map]
    rfl
  · intro q hq
    obtain ⟨p, hp, rfl⟩ := List.mem_map.mp hq
    show (pctChangeRow p.2).length = _
    rw [pctChangeRow_length]
    obtain ⟨p0, _, rfl⟩ := List.mem_map.mp hp
    show (List.map (fun d => lookupD d p0.2)
      (trimCols weeks (sortedUnion (allKeys (fetchedMap fO symbols weeks))))).length = _
    rw [List.length_map]
    rfl
  · intro q hq
    obtain ⟨p, hp, rfl⟩ := List.mem_map.mp hq
    show (normRow p.2).length = _
    rw [normRow_length]
    obtain ⟨p0, _, rfl⟩ := List.mem_map.mp hp
    show (List.map (fun d => lookupD d p0.2)
      (trimCols weeks (sortedUnion (allKeys (fetchedMap fO symbols weeks))))).length = _
    rw [List.length_map]
    rfl

/-- Witness for C10 at a concrete successful run. -/
theorem C10_bundle_consistency_witness :
    (exBundle (buildPriceTables (fun _ => [(1, 10), (2, 11)])
      (fun _ => [10, 11]) ["A"] 5).1).weeklyPct.cols =
    (exBundle (buildPriceTables (fun _ => [(1, 10), (2, 11)])
      (fun _ => [10, 11]) ["A"] 5).1).labels := by
  have hok := exIsOk_spec _ (by decide :
    exIsOk (buildPriceTables (fun _ => [(1, 10), (2, 11)])
      (fun _ => [10, 11]) ["A"] 5).1 = true)
  exact (C10_bundle_consistency _ _ _ _ _ hok).1

end PriceTracker
